import Mathlib

/-!
A shallow embedding of the directory-statistics scanner in
`src/Proyecto grupal/main.cpp`, together with proofs about the claims of the
specification.

* `Extension_info` and `map_type` model `struct Extension_info` and
  `std::map<std::string, Extension_info>`.  The `std::map` is modelled as an
  association list with unique keys built only through `mapUpdate`;
  `std::map` traverses entries in sorted key order while the list keeps
  insertion order, and no property below depends on traversal order.
* `generate_map` models the per-chunk aggregator.  Its interaction with the
  filesystem is represented by pre-interpreted input: a chunk element is
  either a directory (with its final name component and the sequence of
  observations its `directory_iterator` loop produces) or a non-directory
  entry.  `ChildEvent.listError` marks the point where the iterator (or
  `is_regular_file`) throws; `ChildEvent.sizeError` marks a regular file
  whose `fs::file_size` call throws.  In the C++ code `num_files += 1` has
  already executed when `fs::file_size` throws, and the `try` block wraps
  the whole child loop, so a throw abandons the remaining children of that
  directory and control continues with the next chunk element.
* `process_map` and `mergeAll` model the merge loop of `main`.
* `max_chunk_sz` and `plannedChunks` model the chunking in `main`
  (`max_chunk_sz = paths.size() / hardw_threads`,
  `num_futures = hardw_threads - 1`, last chunk extends to `paths.end()`).
* `printedReport` models the printing loop (`if (info.num_files > 0)`).
* `total_subdirectories` and `total_space` model the two `std::accumulate`
  calls of `main`, including the narrowing to `int` forced by their `0`
  initial value (`int32ofNat`, `uint64ofInt`).  `std::uintmax_t` (64-bit)
  is modelled by `Nat`: its wrap at 2^64 is immaterial to every claim
  except the accumulate narrowing, which is modelled exactly.
-/

/-- Mirrors `struct Extension_info { std::uintmax_t num_files, total_size; }`. -/
structure Extension_info where
  num_files : Nat
  total_size : Nat
  deriving DecidableEq

/-- Mirrors `using map_type = std::map<std::string, Extension_info>`,
as an association list with unique keys. -/
abbrev map_type := List (String × Extension_info)

/-- Lookup in the modelled `std::map`. -/
def mapFind : map_type → String → Option Extension_info
  | [], _ => none
  | (k, v) :: rest, key => if k = key then some v else mapFind rest key

/-- The effect of one `m[key] <op>` statement: `operator[]` value-initialises a
missing entry to `{0, 0}`, then the statement updates the entry with `f`. -/
def mapUpdate : map_type → String → (Extension_info → Extension_info) → map_type
  | [], key, f => [(key, f ⟨0, 0⟩)]
  | (k, v) :: rest, key, f =>
      if k = key then (k, f v) :: rest else (k, v) :: mapUpdate rest key f

/-- The keys of the modelled map, in entry order. -/
def mapKeys (m : map_type) : List String := m.map Prod.fst

/-- One observation made by the child loop of `generate_map` on an immediate
child of a directory. -/
inductive ChildEvent where
  /-- a regular file whose size is read successfully -/
  | file (sz : Nat)
  /-- an entry that is not a regular file -/
  | nonfile
  /-- a regular file for which `fs::file_size` throws (after
      `num_files += 1` has already executed) -/
  | sizeError
  /-- the point where `directory_iterator` / `is_regular_file` throws -/
  | listError
  deriving DecidableEq

/-- A pre-interpreted element of a chunk: either a directory with its final
name component and child observations, or a non-directory path. -/
inductive PathEntry where
  | dir (name : String) (children : List ChildEvent)
  | nondir
  deriving DecidableEq

/-- The inner `try { for (entry : directory_iterator{pth}) ... } catch ...`
loop of `generate_map`, acting on the map entry for `name`.  A
`sizeError` still increments `num_files` (the increment precedes the
`fs::file_size` call); both error events end the loop (the exception is
caught outside it). -/
def scanDir (name : String) : map_type → List ChildEvent → map_type
  | m, [] => m
  | m, ChildEvent.file sz :: rest =>
      scanDir name
        (mapUpdate (mapUpdate m name (fun v => ⟨v.num_files + 1, v.total_size⟩))
          name (fun v => ⟨v.num_files, v.total_size + sz⟩)) rest
  | m, ChildEvent.nonfile :: rest => scanDir name m rest
  | m, ChildEvent.sizeError :: _ =>
      mapUpdate m name (fun v => ⟨v.num_files + 1, v.total_size⟩)
  | m, ChildEvent.listError :: _ => m

/-- The body of the outer loop of `generate_map` for one chunk element:
non-directories are skipped; for a directory, `res[dir_name].num_files = 0;`
and `res[dir_name].total_size = 0;` run first, then the child loop. -/
def processPath (m : map_type) : PathEntry → map_type
  | PathEntry.nondir => m
  | PathEntry.dir name children =>
      scanDir name
        (mapUpdate (mapUpdate m name (fun v => ⟨0, v.total_size⟩))
          name (fun v => ⟨v.num_files, 0⟩)) children

/-- The outer loop of `generate_map`, starting from map `m`. -/
def genFrom : map_type → List PathEntry → map_type
  | m, [] => m
  | m, p :: rest => genFrom (processPath m p) rest

/-- Models `generate_map`: fold the chunk into an initially empty map. -/
def generate_map (chunk : List PathEntry) : map_type := genFrom [] chunk

/-- The body of the merge loop of `process_map` for one entry of the partial
map: `global_map[dir].num_files += info.num_files;` then
`global_map[dir].total_size += info.total_size;`. -/
def mergeEntry (g : map_type) (e : String × Extension_info) : map_type :=
  mapUpdate (mapUpdate g e.1 (fun v => ⟨v.num_files + e.2.num_files, v.total_size⟩))
    e.1 (fun v => ⟨v.num_files, v.total_size + e.2.total_size⟩)

/-- The merge loop of `process_map` over the entries of a partial map. -/
def mergeInto : map_type → map_type → map_type
  | g, [] => g
  | g, e :: rest => mergeInto (mergeEntry g e) rest

/-- Models `process_map`: merge one partial map into the global map and add
the partial map's entry count to the directory counter. -/
def process_map (part_map : map_type) (global_map : map_type)
    (directory_counter : Nat) : map_type × Nat :=
  (mergeInto global_map part_map, directory_counter + part_map.length)

/-- The wait-and-merge loop of `main`
(`for (auto& future : futures) process_map(future.get(), ...)`), starting
from a given global map and counter value. -/
def mergeAllFrom : map_type × Nat → List map_type → map_type × Nat
  | acc, [] => acc
  | acc, pm :: rest => mergeAllFrom (process_map pm acc.1 acc.2) rest

/-- Merging every partial map into an initially empty global map with the
counter at `0`, as `main` does. -/
def mergeAll (pms : List map_type) : map_type × Nat := mergeAllFrom ([], 0) pms

/-- Models `auto const max_chunk_sz = paths.size() / hardw_threads;`. -/
def max_chunk_sz (n threads : Nat) : Nat := n / threads

/-- Models the chunk computed for worker `i` in the launch loop of `main`:
`begin = paths.begin() + i * max_chunk_sz;`
`end = (i == num_futures - 1) ? paths.end() : begin + max_chunk_sz;`. -/
def chunkAt (paths : List α) (sz futures i : Nat) : List α :=
  if i = futures - 1 then paths.drop (i * sz) else (paths.drop (i * sz)).take sz

/-- Models the list of chunks handed to the `num_futures = hardw_threads - 1`
workers launched by `main`. -/
def plannedChunks (paths : List α) (threads : Nat) : List (List α) :=
  (List.range (threads - 1)).map
    (chunkAt paths (max_chunk_sz paths.length threads) (threads - 1))

/-- Models the report loop of `main`: one line per entry with
`info.num_files > 0`. -/
def printedReport (m : map_type) : map_type :=
  m.filter (fun e => 0 < e.2.num_files)

/-- Conversion of an unsigned 64-bit value to `int` (32-bit, two's
complement), as the assignment back to the `int` accumulator of
`std::accumulate` performs. -/
def int32ofNat (n : Nat) : Int :=
  if n % 2 ^ 32 < 2 ^ 31 then ((n % 2 ^ 32 : Nat) : Int)
  else ((n % 2 ^ 32 : Nat) : Int) - 2 ^ 32

/-- Conversion of the `int` accumulator to `std::uintmax_t` (64-bit) inside
the lambda body, wrapping modulo 2^64. -/
def uint64ofInt (i : Int) : Nat := (i % 2 ^ 64).toNat

/-- Models `std::accumulate(processed_data.begin(), processed_data.end(), 0,
[](int sum, const auto& entry) { return sum + entry.second.num_files; })`:
the `0` makes the accumulator an `int`, the addition happens in
`uintmax_t`, and the result narrows back to `int` each step. -/
def total_subdirectories (m : map_type) : Int :=
  m.foldl (fun sum e => int32ofNat ((uint64ofInt sum + e.2.num_files) % 2 ^ 64)) 0

/-- Models `std::accumulate(processed_data.begin(), processed_data.end(), 0,
[](std::uintmax_t sum, const auto& entry) { return sum + entry.second.total_size; })`:
the `0` initial value still makes the accumulator an `int`, so each step
narrows the 64-bit sum back to `int`. -/
def total_space (m : map_type) : Int :=
  m.foldl (fun sum e => int32ofNat ((uint64ofInt sum + e.2.total_size) % 2 ^ 64)) 0

/-- The exact (unbounded) sum of `num_files` over a map, the total the
specification describes. -/
def exact_total_files (m : map_type) : Nat :=
  m.foldl (fun s e => s + e.2.num_files) 0

/-- The exact (unbounded) sum of `total_size` over a map, the total the
specification describes. -/
def exact_total_space (m : map_type) : Nat :=
  m.foldl (fun s e => s + e.2.total_size) 0

/-- The pair of counters accumulated by the child loop, starting from `v`:
the contents of the map entry for the scanned directory after `scanDir`. -/
def scanFrom (v : Extension_info) : List ChildEvent → Extension_info
  | [] => v
  | ChildEvent.file sz :: rest => scanFrom ⟨v.num_files + 1, v.total_size + sz⟩ rest
  | ChildEvent.nonfile :: rest => scanFrom v rest
  | ChildEvent.sizeError :: _ => ⟨v.num_files + 1, v.total_size⟩
  | ChildEvent.listError :: _ => v

/-- The stats `generate_map` records for a directory with child observations
`evs` (starting from the freshly reset `{0, 0}` entry). -/
def scanInfo (evs : List ChildEvent) : Extension_info := scanFrom ⟨0, 0⟩ evs

/-- Number of regular files among the child observations. -/
def eventFiles : List ChildEvent → Nat
  | [] => 0
  | ChildEvent.file _ :: rest => eventFiles rest + 1
  | _ :: rest => eventFiles rest

/-- Total byte size of the regular files among the child observations. -/
def eventBytes : List ChildEvent → Nat
  | [] => 0
  | ChildEvent.file sz :: rest => eventBytes rest + sz
  | _ :: rest => eventBytes rest

/-- `true` when no I/O error occurs while scanning the children. -/
def errorFreeB : List ChildEvent → Bool
  | [] => true
  | ChildEvent.file _ :: rest => errorFreeB rest
  | ChildEvent.nonfile :: rest => errorFreeB rest
  | _ => false

/-- The final name components of the directory entries of a chunk, in order. -/
def dirNames : List PathEntry → List String
  | [] => []
  | PathEntry.dir n _ :: rest => n :: dirNames rest
  | PathEntry.nondir :: rest => dirNames rest

/-- The child observations of the last directory entry of the chunk carrying
the given name, if any. -/
def lastDirEvents : List PathEntry → String → Option (List ChildEvent)
  | [], _ => none
  | PathEntry.dir n evs :: rest, name =>
      match lastDirEvents rest name with
      | some e => some e
      | none => if n = name then some evs else none
  | PathEntry.nondir :: rest, name => lastDirEvents rest name

/-- `name` is the name of no directory entry of the chunk. -/
def noDirNamed (l : List PathEntry) (name : String) : Prop :=
  ∀ evs, PathEntry.dir name evs ∉ l

/-- Sum, over a list of partial maps, of the `num_files` recorded for a key
(taking `0` where the key is absent). -/
def partFiles : List map_type → String → Nat
  | [], _ => 0
  | pm :: rest, k => ((mapFind pm k).getD ⟨0, 0⟩).num_files + partFiles rest k

/-- Sum, over a list of partial maps, of the `total_size` recorded for a key
(taking `0` where the key is absent). -/
def partBytes : List map_type → String → Nat
  | [], _ => 0
  | pm :: rest, k => ((mapFind pm k).getD ⟨0, 0⟩).total_size + partBytes rest k

/-- `true` when at least one of the partial maps contains the key. -/
def appearsB : List map_type → String → Bool
  | [], _ => false
  | pm :: rest, k => (mapFind pm k).isSome || appearsB rest k

/-- Key-disjointness of two partial maps. -/
def disjKeys (a b : map_type) : Prop :=
  ∀ k, k ∈ mapKeys a → k ∉ mapKeys b

/-- String constants used by concrete witnesses and counterexamples. -/
def sX : String := "x"

def sY : String := "y"

def sZ : String := "z"

theorem mapFind_mapUpdate_self (m : map_type) (k : String)
    (f : Extension_info → Extension_info) :
    mapFind (mapUpdate m k f) k = some (f ((mapFind m k).getD ⟨0, 0⟩)) := by
  induction m with
  | nil => simp [mapUpdate, mapFind]
  | cons e rest ih =>
      obtain ⟨k', v⟩ := e
      by_cases h : k' = k
      · simp [mapUpdate, mapFind, h]
      · simp [mapUpdate, mapFind, h, ih]

theorem mapFind_mapUpdate_ne (m : map_type) {k k' : String}
    (f : Extension_info → Extension_info) (h : k ≠ k') :
    mapFind (mapUpdate m k f) k' = mapFind m k' := by
  induction m with
  | nil => simp [mapUpdate, mapFind, h]
  | cons e rest ih =>
      obtain ⟨k'', v⟩ := e
      by_cases h' : k'' = k
      · subst h'
        simp [mapUpdate, mapFind, h]
      · simp [mapUpdate, mapFind, h', ih]

theorem scanDir_find_ne (name : String) (evs : List ChildEvent) :
    ∀ (m : map_type) (k : String), name ≠ k →
      mapFind (scanDir name m evs) k = mapFind m k := by
  induction evs with
  | nil => intro m k h; simp [scanDir]
  | cons e rest ih =>
      intro m k h
      cases e with
      | file sz => simp [scanDir, ih _ _ h, mapFind_mapUpdate_ne _ _ h]
      | nonfile => simp [scanDir, ih _ _ h]
      | sizeError => simp [scanDir, mapFind_mapUpdate_ne _ _ h]
      | listError => simp [scanDir]

theorem scanDir_find_self (name : String) (evs : List ChildEvent) :
    ∀ (m : map_type) (v : Extension_info), mapFind m name = some v →
      mapFind (scanDir name m evs) name = some (scanFrom v evs) := by
  induction evs with
  | nil => intro m v h; simpa [scanDir, scanFrom] using h
  | cons e rest ih =>
      intro m v h
      cases e with
      | file sz =>
          apply ih
          rw [mapFind_mapUpdate_self, mapFind_mapUpdate_self, h]
          rfl
      | nonfile => exact ih m v h
      | sizeError =>
          rw [scanDir, mapFind_mapUpdate_self, h]
          rfl
      | listError => simpa [scanDir, scanFrom] using h

theorem processPath_dir_find (m : map_type) (n : String) (evs : List ChildEvent)
    (k : String) :
    mapFind (processPath m (PathEntry.dir n evs)) k =
      if n = k then some (scanInfo evs) else mapFind m k := by
  by_cases h : n = k
  · subst h
    rw [if_pos rfl, processPath]
    simp only [scanInfo]
    apply scanDir_find_self
    rw [mapFind_mapUpdate_self, mapFind_mapUpdate_self]
    rfl
  · rw [processPath, scanDir_find_ne _ _ _ _ h, mapFind_mapUpdate_ne _ _ h,
      mapFind_mapUpdate_ne _ _ h, if_neg h]

theorem genFrom_find (chunk : List PathEntry) :
    ∀ (m : map_type) (k : String),
      mapFind (genFrom m chunk) k =
        match lastDirEvents chunk k with
        | some evs => some (scanInfo evs)
        | none => mapFind m k := by
  induction chunk with
  | nil => intro m k; simp [genFrom, lastDirEvents]
  | cons p rest ih =>
      intro m k
      cases p with
      | nondir => rw [genFrom, processPath, ih, lastDirEvents]
      | dir n evs =>
          rw [genFrom, ih, lastDirEvents]
          cases h : lastDirEvents rest k with
          | some e => rfl
          | none =>
              simp only [processPath_dir_find]
              by_cases hn : n = k <;> simp [hn]

theorem generate_map_find (chunk : List PathEntry) (k : String) :
    mapFind (generate_map chunk) k = Option.map scanInfo (lastDirEvents chunk k) := by
  rw [generate_map, genFrom_find]
  cases lastDirEvents chunk k <;> simp [mapFind]

theorem mem_dirNames {l : List PathEntry} {n : String} {evs : List ChildEvent}
    (h : PathEntry.dir n evs ∈ l) : n ∈ dirNames l := by
  induction l with
  | nil => cases h
  | cons p rest ih =>
      cases p with
      | nondir =>
          rw [dirNames]
          rcases List.mem_cons.1 h with h' | h'
        
          · cases h'
          · exact ih h'
      | dir n0 e0 =>
          rw [dirNames]
          rcases List.mem_cons.1 h with h' | h'
          · cases h'; exact List.mem_cons_self _ _
          · exact List.mem_cons_of_mem _ (ih h')

theorem lastDirEvents_eq_none {l : List PathEntry} {n : String}
    (h : n ∉ dirNames l) : lastDirEvents l n = none := by
  induction l with
  | nil => rfl
  | cons p rest ih =>
      cases p with
      | nondir =>
          rw [dirNames] at h
          rw [lastDirEvents]
          exact ih h
      | dir n0 e0 =>
          rw [dirNames] at h
          have hne : ¬ n0 = n := by
            intro he
            subst he
            exact h (List.mem_cons_self _ _)
          rw [lastDirEvents, ih (fun hm => h (List.mem_cons_of_mem _ hm)), if_neg hne]

theorem lastDirEvents_of_nodup {l : List PathEntry} {n : String}
    {evs : List ChildEvent} (hnd : (dirNames l).Nodup)
    (h : PathEntry.dir n evs ∈ l) : lastDirEvents l n = some evs := by
  induction l with
  | nil => cases h
  | cons p rest ih =>
      cases p with
      | nondir =>
          rw [dirNames] at hnd
          rw [lastDirEvents]
          rcases List.mem_cons.1 h with h' | h'
          · cases h'
          · exact ih hnd h'
      | dir n0 e0 =>
          rw [dirNames] at hnd
          rw [lastDirEvents]
          rcases List.mem_cons.1 h with h' | h'
          · rw [PathEntry.dir.injEq] at h'
            obtain ⟨rfl, rfl⟩ := h'
            rw [lastDirEvents_eq_none (List.nodup_cons.1 hnd).1, if_pos rfl]
          · rw [ih (List.nodup_cons.1 hnd).2 h']

theorem scanFrom_errorFree (evs : List ChildEvent) :
    ∀ v : Extension_info, errorFreeB evs = true →
      scanFrom v evs = ⟨v.num_files + eventFiles evs, v.total_size + eventBytes evs⟩ := by
  induction evs with
  | nil => intro v h; simp [scanFrom, eventFiles, eventBytes]
  | cons e rest ih =>
      intro v h
      cases e with
      | file sz =>
          rw [scanFrom, ih _ (by simpa [errorFreeB] using h)]
          simp only [eventFiles, eventBytes, Extension_info.mk.injEq]
          omega
      | nonfile =>
          rw [scanFrom, ih _ (by simpa [errorFreeB] using h)]
          simp [eventFiles, eventBytes]
      | sizeError => simp [errorFreeB] at h
      | listError => simp [errorFreeB] at h

theorem lastDirEvents_mem {l : List PathEntry} {n : String} :
    ∀ {e : List ChildEvent}, lastDirEvents l n = some e → PathEntry.dir n e ∈ l := by
  induction l with
  | nil => intro e h; cases h
  | cons p rest ih =>
      intro e h
      cases p with
      | nondir =>
          rw [lastDirEvents] at h
          exact List.mem_cons_of_mem _ (ih h)
      | dir n0 e0 =>
          rw [lastDirEvents] at h
          cases h' : lastDirEvents rest n with
          | some e1 =>
              rw [h'] at h
              simp only [Option.some.injEq] at h
              subst h
              exact List.mem_cons_of_mem _ (ih h')
          | none =>
              rw [h'] at h
              by_cases hn : n0 = n
              · rw [if_pos hn] at h
                simp only [Option.some.injEq] at h
                subst h
                subst hn
                exact List.mem_cons_self _ _
              · rw [if_neg hn] at h
                cases h

theorem exists_dir_of_mem_dirNames {l : List PathEntry} {n : String}
    (h : n ∈ dirNames l) : ∃ evs, PathEntry.dir n evs ∈ l := by
  induction l with
  | nil => cases h
  | cons p rest ih =>
      cases p with
      | nondir =>
          rw [dirNames] at h
          obtain ⟨evs, hm⟩ := ih h
          exact ⟨evs, List.mem_cons_of_mem _ hm⟩
      | dir n0 e0 =>
          rw [dirNames] at h
          rcases List.mem_cons.1 h with h' | h'
          · subst h'
            exact ⟨e0, List.mem_cons_self _ _⟩
          · obtain ⟨evs, hm⟩ := ih h'
            exact ⟨evs, List.mem_cons_of_mem _ hm⟩

theorem lastDirEvents_of_noDir {l : List PathEntry} {n : String}
    (h : noDirNamed l n) : lastDirEvents l n = none := by
  apply lastDirEvents_eq_none
  intro hmem
  obtain ⟨evs, hm⟩ := exists_dir_of_mem_dirNames hmem
  exact h evs hm

theorem lastDirEvents_append (l1 l2 : List PathEntry) (n : String) :
    lastDirEvents (l1 ++ l2) n =
      match lastDirEvents l2 n with
      | some e => some e
      | none => lastDirEvents l1 n := by
  induction l1 with
  | nil =>
      rw [List.nil_append]
      cases lastDirEvents l2 n <;> rfl
  | cons p rest ih =>
      cases p with
      | nondir =>
          rw [List.cons_append, lastDirEvents, ih, lastDirEvents]
      | dir n0 e0 =>
          rw [List.cons_append, lastDirEvents, ih]
          cases hl : lastDirEvents l2 n <;>
            cases hr : lastDirEvents rest n <;>
              simp [lastDirEvents, hl, hr]

theorem mapFind_eq_none_of_not_mem {m : map_type} {k : String}
    (h : k ∉ mapKeys m) : mapFind m k = none := by
  induction m with
  | nil => rfl
  | cons e rest ih =>
      obtain ⟨k0, v0⟩ := e
      simp only [mapKeys, List.map_cons, List.mem_cons, not_or] at h
      rw [mapFind, if_neg (Ne.symm h.1)]
      exact ih (by simpa [mapKeys] using h.2)

theorem mergeEntry_find_self (g : map_type) (e : String × Extension_info) :
    mapFind (mergeEntry g e) e.1 =
      some ⟨((mapFind g e.1).getD ⟨0, 0⟩).num_files + e.2.num_files,
            ((mapFind g e.1).getD ⟨0, 0⟩).total_size + e.2.total_size⟩ := by
  rw [mergeEntry, mapFind_mapUpdate_self, mapFind_mapUpdate_self]
  rfl

theorem mergeEntry_find_ne (g : map_type) (e : String × Extension_info)
    {k : String} (h : e.1 ≠ k) :
    mapFind (mergeEntry g e) k = mapFind g k := by
  rw [mergeEntry, mapFind_mapUpdate_ne _ _ h, mapFind_mapUpdate_ne _ _ h]

theorem mergeInto_find_none (pm : map_type) :
    ∀ (g : map_type) (k : String), mapFind pm k = none →
      mapFind (mergeInto g pm) k = mapFind g k := by
  induction pm with
  | nil => intro g k _; rfl
  | cons e rest ih =>
      intro g k h
      obtain ⟨k0, v0⟩ := e
      rw [mapFind] at h
      by_cases hk : k0 = k
      · rw [if_pos hk] at h; cases h
      · rw [if_neg hk] at h
        rw [mergeInto, ih _ _ h, mergeEntry_find_ne _ _ hk]

theorem mergeInto_find_some (pm : map_type) :
    ∀ (g : map_type) (k : String) (v : Extension_info),
      (mapKeys pm).Nodup → mapFind pm k = some v →
      mapFind (mergeInto g pm) k =
        some ⟨((mapFind g k).getD ⟨0, 0⟩).num_files + v.num_files,
              ((mapFind g k).getD ⟨0, 0⟩).total_size + v.total_size⟩ := by
  induction pm with
  | nil => intro g k v _ h; cases h
  | cons e rest ih =>
      intro g k v hnd h
      obtain ⟨k0, v0⟩ := e
      simp only [mapKeys, List.map_cons, List.nodup_cons] at hnd
      rw [mapFind] at h
      by_cases hk : k0 = k
      · rw [if_pos hk] at h
        simp only [Option.some.injEq] at h
        subst h
        subst hk
        have hrest : mapFind rest k0 = none :=
          mapFind_eq_none_of_not_mem (by simpa [mapKeys] using hnd.1)
        rw [mergeInto, mergeInto_find_none rest _ _ hrest]
        exact mergeEntry_find_self g (k0, v0)
      · rw [if_neg hk] at h
        rw [mergeInto, ih _ _ _ (by simpa [mapKeys] using hnd.2) h,
          mergeEntry_find_ne _ _ hk]

theorem mergeAllFrom_counter (pms : List map_type) :
    ∀ (g : map_type) (c : Nat),
      (mergeAllFrom (g, c) pms).2 = c + (pms.map List.length).sum := by
  induction pms with
  | nil => intro g c; simp [mergeAllFrom]
  | cons pm rest ih =>
      intro g c
      simp only [mergeAllFrom, process_map]
      rw [ih]
      simp only [List.map_cons, List.sum_cons]
      omega

theorem mergeAllFrom_find (pms : List map_type) :
    ∀ (g : map_type) (c : Nat) (k : String),
      (∀ pm ∈ pms, (mapKeys pm).Nodup) →
      mapFind (mergeAllFrom (g, c) pms).1 k =
        if appearsB pms k || (mapFind g k).isSome
        then some ⟨((mapFind g k).getD ⟨0, 0⟩).num_files + partFiles pms k,
                   ((mapFind g k).getD ⟨0, 0⟩).total_size + partBytes pms k⟩
        else none := by
  induction pms with
  | nil =>
      intro g c k _
      cases hg : mapFind g k with
      | none => simp [mergeAllFrom, appearsB, hg, partFiles, partBytes]
      | some v => simp [mergeAllFrom, appearsB, hg, partFiles, partBytes]
  | cons pm rest ih =>
      intro g c k h
      simp only [mergeAllFrom, process_map]
      rw [ih _ _ _ (fun q hq => h q (List.mem_cons_of_mem _ hq))]
      cases hpm : mapFind pm k with
      | some v =>
          rw [mergeInto_find_some pm g k v (h pm (List.mem_cons_self _ _)) hpm]
          simp [appearsB, partFiles, partBytes, hpm, Nat.add_assoc]
      | none =>
          rw [mergeInto_find_none pm g k hpm]
          simp [appearsB, partFiles, partBytes, hpm]

theorem mapKeys_mapUpdate (m : map_type) (k : String)
    (f : Extension_info → Extension_info) :
    mapKeys (mapUpdate m k f) =
      if k ∈ mapKeys m then mapKeys m else mapKeys m ++ [k] := by
  induction m with
  | nil => simp [mapUpdate, mapKeys]
  | cons e rest ih =>
      obtain ⟨k0, v0⟩ := e
      simp only [mapKeys] at ih ⊢
      by_cases h : k0 = k
      · subst h
        simp [mapUpdate]
      · rw [mapUpdate, if_neg h, List.map_cons, List.map_cons, ih]
        have hkk : ¬ k = k0 := fun he => h he.symm
        by_cases h2 : k ∈ List.map Prod.fst rest
        · rw [if_pos h2, if_pos (List.mem_cons_of_mem _ h2)]
        · rw [if_neg h2, if_neg (by simp [List.mem_cons, hkk, h2]),
            List.cons_append]

theorem mem_mapKeys_mapUpdate (m : map_type) (k : String)
    (f : Extension_info → Extension_info) :
    k ∈ mapKeys (mapUpdate m k f) := by
  rw [mapKeys_mapUpdate]
  by_cases h : k ∈ mapKeys m <;> simp [h]

theorem mapKeys_mergeEntry (g : map_type) (e : String × Extension_info) :
    mapKeys (mergeEntry g e) =
      if e.1 ∈ mapKeys g then mapKeys g else mapKeys g ++ [e.1] := by
  rw [mergeEntry, mapKeys_mapUpdate, mapKeys_mapUpdate]
  by_cases h : e.1 ∈ mapKeys g
  · simp [h]
  · simp [h]

theorem mapKeys_mergeInto_disj (pm : map_type) :
    ∀ g : map_type, (mapKeys pm).Nodup → (∀ k ∈ mapKeys pm, k ∉ mapKeys g) →
      mapKeys (mergeInto g pm) = mapKeys g ++ mapKeys pm := by
  induction pm with
  | nil => intro g _ _; simp [mergeInto, mapKeys]
  | cons e rest ih =>
      intro g hnd hdisj
      obtain ⟨k0, v0⟩ := e
      simp only [mapKeys, List.map_cons, List.nodup_cons] at hnd
      have hk0 : k0 ∉ mapKeys g :=
        hdisj k0 (by simp [mapKeys])
      rw [mergeInto, ih _ (by simpa [mapKeys] using hnd.2)]
      · rw [mapKeys_mergeEntry, if_neg hk0]
        simp [mapKeys, List.append_assoc]
      · intro k hk
        rw [mapKeys_mergeEntry, if_neg hk0]
        simp only [List.mem_append, List.mem_singleton, not_or]
        constructor
        · exact hdisj k (by simp [mapKeys]; right; simpa [mapKeys] using hk)
        · intro he
          subst he
          exact hnd.1 (by simpa [mapKeys] using hk)

theorem mapKeys_mergeAllFrom (pms : List map_type) :
    ∀ (g : map_type) (c : Nat),
      (∀ pm ∈ pms, (mapKeys pm).Nodup) →
      List.Pairwise disjKeys pms →
      (∀ pm ∈ pms, ∀ k ∈ mapKeys pm, k ∉ mapKeys g) →
      mapKeys (mergeAllFrom (g, c) pms).1 = mapKeys g ++ (pms.map mapKeys).flatten := by
  induction pms with
  | nil => intro g c _ _ _; simp [mergeAllFrom]
  | cons pm rest ih =>
      intro g c hnd hpw hdis
      simp only [mergeAllFrom, process_map]
      rw [ih _ _ (fun q hq => hnd q (List.mem_cons_of_mem _ hq))
          (List.Pairwise.sublist (List.sublist_cons_self _ _) hpw)]
      · rw [mapKeys_mergeInto_disj pm g (hnd pm (List.mem_cons_self _ _))
            (hdis pm (List.mem_cons_self _ _))]
        simp [List.append_assoc]
      · intro pm' hpm' k hk
        rw [mapKeys_mergeInto_disj pm g (hnd pm (List.mem_cons_self _ _))
            (hdis pm (List.mem_cons_self _ _))]
        simp only [List.mem_append, not_or]
        constructor
        · exact hdis pm' (List.mem_cons_of_mem _ hpm') k hk
        · intro hkpm
          exact ((List.pairwise_cons.1 hpw).1 pm' hpm' k hkpm) hk

theorem takeChunks_flatten (l : List α) (sz : Nat) :
    ∀ k : Nat,
      ((List.range k).map (fun i => (l.drop (i * sz)).take sz)).flatten =
        l.take (k * sz) := by
  intro k
  induction k with
  | zero => simp
  | succ k ih =>
      rw [List.range_succ, List.map_append, List.flatten_append, ih]
      simp only [List.map_cons, List.map_nil, List.flatten_cons, List.flatten_nil,
        List.append_nil]
      rw [Nat.succ_mul, List.take_add]

theorem plannedChunks_flatten (paths : List α) (W : Nat) (hW : 1 ≤ W) :
    (plannedChunks paths (W + 1)).flatten = paths := by
  obtain ⟨K, rfl⟩ : ∃ K, W = K + 1 := ⟨W - 1, by omega⟩
  rw [plannedChunks]
  rw [show K + 1 + 1 - 1 = K + 1 from rfl]
  rw [List.range_succ, List.map_append, List.flatten_append]
  have hcong : ∀ i ∈ List.range K,
      chunkAt paths (max_chunk_sz paths.length (K + 1 + 1)) (K + 1) i =
        (paths.drop (i * max_chunk_sz paths.length (K + 1 + 1))).take
          (max_chunk_sz paths.length (K + 1 + 1)) := by
    intro i hi
    rw [List.mem_range] at hi
    rw [chunkAt, if_neg (by omega)]
  rw [List.map_congr_left hcong, takeChunks_flatten]
  simp only [List.map_cons, List.map_nil, List.flatten_cons, List.flatten_nil,
    List.append_nil]
  rw [chunkAt, if_pos (by omega)]
  exact List.take_append_drop _ _

theorem plannedChunks_length (paths : List α) (T : Nat) :
    (plannedChunks paths T).length = T - 1 := by
  simp [plannedChunks]

theorem plannedChunks_getElem (paths : List α) (T i : Nat) (hi : i < T - 1) :
    (plannedChunks paths T)[i]? =
      some (chunkAt paths (max_chunk_sz paths.length T) (T - 1) i) := by
  rw [plannedChunks, List.getElem?_map, List.getElem?_range hi]
  rfl

theorem chunkAt_small_length (paths : List α) (W i : Nat) (hW : 1 ≤ W)
    (hi : i + 1 < W) :
    (chunkAt paths (max_chunk_sz paths.length (W + 1)) (W + 1 - 1) i).length =
      max_chunk_sz paths.length (W + 1) := by
  have h1 : max_chunk_sz paths.length (W + 1) * (W + 1) ≤ paths.length :=
    Nat.div_mul_le_self _ _
  have h2 : (i + 1) * max_chunk_sz paths.length (W + 1) ≤
      (W + 1) * max_chunk_sz paths.length (W + 1) :=
    Nat.mul_le_mul_right _ (by omega)
  have h3 : (i + 1) * max_chunk_sz paths.length (W + 1) ≤ paths.length :=
    le_trans h2 (by rw [Nat.mul_comm]; exact h1)
  have h4 : (i + 1) * max_chunk_sz paths.length (W + 1) =
      i * max_chunk_sz paths.length (W + 1) + max_chunk_sz paths.length (W + 1) :=
    Nat.succ_mul _ _
  rw [chunkAt, if_neg (by omega), List.length_take, List.length_drop]
  omega

/-- C1 counterexample: in the chunk `[dir "x" {file 5}, dir "x" {listError}]`
the second directory's child listing raises an I/O error, yet the aggregator
does not return correct stats for the other (first) directory: its correct
stats are 1 file and 5 bytes, but the returned mapping carries `{0, 0}` for
its name, because reaching the second directory reset the shared entry. -/
theorem c1_counterexample :
    errorFreeB [ChildEvent.listError] = false ∧
    eventFiles [ChildEvent.file 5] = 1 ∧ eventBytes [ChildEvent.file 5] = 5 ∧
    mapFind (generate_map
      [PathEntry.dir sX [ChildEvent.file 5],
       PathEntry.dir sX [ChildEvent.listError]]) sX = some ⟨0, 0⟩ := by
  decide

/-- C1 (amended): for a chunk whose directory entries have pairwise-distinct
final name components, if one directory's child listing or a file-size read
raises an I/O error, the error is absorbed (the aggregator still returns a
mapping), every other (error-free) directory of the chunk gets its exact
stats, and the erroring directory's entry is not discarded: it stays in the
partial mapping with the counts accumulated before the error. -/
theorem c1_fault_isolation (pre post : List PathEntry) (name : String)
    (evs : List ChildEvent)
    (hnodup : (dirNames (pre ++ PathEntry.dir name evs :: post)).Nodup)
    (herr : errorFreeB evs = false)
    (hok : ∀ n' evs', PathEntry.dir n' evs' ∈ pre ++ post → errorFreeB evs' = true) :
    (∀ n' evs', PathEntry.dir n' evs' ∈ pre ++ post →
      mapFind (generate_map (pre ++ PathEntry.dir name evs :: post)) n' =
        some ⟨eventFiles evs', eventBytes evs'⟩) ∧
    mapFind (generate_map (pre ++ PathEntry.dir name evs :: post)) name =
      some (scanInfo evs) := by
  constructor
  · intro n' evs' hm
    have hmem : PathEntry.dir n' evs' ∈ pre ++ PathEntry.dir name evs :: post := by
      rcases List.mem_append.1 hm with h' | h'
      · exact List.mem_append.2 (Or.inl h')
      · exact List.mem_append.2 (Or.inr (List.mem_cons_of_mem _ h'))
    rw [generate_map_find, lastDirEvents_of_nodup hnodup hmem]
    simp only [Option.map_some']
    rw [scanInfo, scanFrom_errorFree evs' _ (hok n' evs' hm)]
    simp
  · have hmem : PathEntry.dir name evs ∈ pre ++ PathEntry.dir name evs :: post :=
      List.mem_append.2 (Or.inr (List.mem_cons_self _ _))
    rw [generate_map_find, lastDirEvents_of_nodup hnodup hmem]
    rfl

/-- C1 witness: concrete instance of the fault-isolation theorem. -/
theorem c1_witness :
    mapFind (generate_map
      [PathEntry.dir sY [ChildEvent.file 3],
       PathEntry.dir sX [ChildEvent.listError],
       PathEntry.dir sZ []]) sY = some ⟨1, 3⟩ := by
  have h := c1_fault_isolation [PathEntry.dir sY [ChildEvent.file 3]]
    [PathEntry.dir sZ []] sX [ChildEvent.listError]
    (by decide) (by decide)
    (by
      intro n' evs' hm
      simp only [List.cons_append, List.nil_append, List.mem_cons,
        List.not_mem_nil, or_false] at hm
      rcases hm with h1 | h1 <;> (cases h1; decide))
  have h2 := h.1 sY [ChildEvent.file 3] (by decide)
  simpa using h2

/-- C2: after merging all partial mappings into the initially empty global
mapping, a directory name is present in the global mapping exactly when some
partial mapping contains it (names absent from the global map are created
with a zero baseline by the additive upsert), and its global `num_files` and
`total_size` are the sums of that name's values across all partial mappings
containing it — nothing is double-counted or dropped. -/
theorem c2_merge_additivity (pms : List map_type) (k : String)
    (h : ∀ pm ∈ pms, (mapKeys pm).Nodup) :
    mapFind (mergeAll pms).1 k =
      if appearsB pms k then some ⟨partFiles pms k, partBytes pms k⟩ else none := by
  rw [mergeAll, mergeAllFrom_find pms [] 0 k h]
  simp [mapFind]

/-- C2 witness: concrete instance of merge additivity. -/
theorem c2_witness :
    mapFind (mergeAll [[(sX, ⟨1, 5⟩), (sY, ⟨2, 7⟩)], [(sX, ⟨3, 11⟩)]]).1 sX =
      some ⟨4, 16⟩ := by
  have h := c2_merge_additivity [[(sX, ⟨1, 5⟩), (sY, ⟨2, 7⟩)], [(sX, ⟨3, 11⟩)]] sX
    (by decide)
  exact h.trans (by decide)

/-- C3: with at least one worker, the chunks handed to the workers
concatenate (in order, no gaps, no overlaps) exactly to the enumerated path
list, there is one chunk per worker, and every chunk except the final one
has exactly `paths.size() / hardw_threads` elements, the final chunk
absorbing the remainder. -/
theorem c3_partition_coverage {α : Type} (paths : List α) (W : Nat)
    (hW : 1 ≤ W) :
    (plannedChunks paths (W + 1)).flatten = paths ∧
    (plannedChunks paths (W + 1)).length = W ∧
    (∀ i, i + 1 < W →
      ∃ c, (plannedChunks paths (W + 1))[i]? = some c ∧
        c.length = max_chunk_sz paths.length (W + 1)) := by
  refine ⟨plannedChunks_flatten paths W hW, ?_, ?_⟩
  · simp [plannedChunks_length]
  · intro i hi
    refine ⟨_, plannedChunks_getElem paths (W + 1) i (by omega), ?_⟩
    exact chunkAt_small_length paths W i hW hi

/-- C3 witness: concrete instance of partition coverage. -/
theorem c3_witness :
    (plannedChunks [0, 1, 2, 3, 4] 3).flatten = [0, 1, 2, 3, 4] ∧
    (plannedChunks [0, 1, 2, 3, 4] 3).length = 2 := by
  have h := c3_partition_coverage [0, 1, 2, 3, 4] 2 (by decide)
  exact ⟨h.1, h.2.1⟩

/-- C4 counterexample: with 3 workers and a single path (worker count exceeds
the path count), the chunk size computed by `main` is `1 / 4 = 0`, not "at
least 1" as the claim states; the leading chunks come out empty. -/
theorem c4_counterexample :
    max_chunk_sz 1 (3 + 1) = 0 ∧ ¬ 1 ≤ max_chunk_sz 1 (3 + 1) ∧
    plannedChunks [0] (3 + 1) = [[], [], [0]] := by
  decide

/-- C4 (amended): when the worker count `W ≥ 1` is at least the path count,
the chunk size `paths.size() / (W + 1)` is `0` (not "at least 1"); the run
still degrades gracefully rather than failing: every non-final chunk is
empty, the final chunk absorbs the whole path list, and no division by zero
occurs since the divisor `W + 1` is positive (the code has no explicit
guard: a zero hardware-thread count would divide by zero). -/
theorem c4_degrade_no_div {α : Type} (paths : List α) (W : Nat) (hW : 1 ≤ W)
    (hle : paths.length ≤ W) :
    max_chunk_sz paths.length (W + 1) = 0 ∧
    (∀ i, i + 1 < W → (plannedChunks paths (W + 1))[i]? = some []) ∧
    (plannedChunks paths (W + 1)).flatten = paths := by
  have hsz : max_chunk_sz paths.length (W + 1) = 0 :=
    Nat.div_eq_of_lt (by omega)
  refine ⟨hsz, ?_, plannedChunks_flatten paths W hW⟩
  intro i hi
  rw [plannedChunks_getElem paths (W + 1) i (by omega)]
  rw [chunkAt, if_neg (by omega), hsz]
  simp

/-- C4 witness: concrete instance of the amended degradation statement. -/
theorem c4_witness :
    max_chunk_sz 2 4 = 0 ∧ (plannedChunks [0, 1] 4).flatten = [0, 1] := by
  have h := c4_degrade_no_div [0, 1] 3 (by decide) (by decide)
  exact ⟨h.1, h.2.2⟩

/-- C5 counterexample: in the chunk `[dir "x" {file 5}, dir "x" {}]` both
paths are directories sharing the final name component `x`; the first
directory has one regular-file child of 5 bytes, yet the produced mapping
holds `{0, 0}` for `x` — the first directory does not contribute an entry
with its own file count and byte sum as the claim states. -/
theorem c5_counterexample :
    generate_map [PathEntry.dir sX [ChildEvent.file 5], PathEntry.dir sX []] =
      [(sX, ⟨0, 0⟩)] ∧
    eventFiles [ChildEvent.file 5] = 1 ∧ eventBytes [ChildEvent.file 5] = 5 ∧
    (⟨0, 0⟩ : Extension_info) ≠ ⟨1, 5⟩ := by
  decide

/-- C5 (amended): for a chunk whose directory entries have pairwise-distinct
final name components, every error-free directory of the chunk contributes
the entry keyed by its final name component whose `num_files` counts its
immediate regular-file children and whose `total_size` sums their byte
sizes; and every key of the produced mapping comes from a directory of the
chunk, so non-directory paths contribute nothing. -/
theorem c5_chunk_aggregation (chunk : List PathEntry)
    (hnodup : (dirNames chunk).Nodup) :
    (∀ name evs, PathEntry.dir name evs ∈ chunk → errorFreeB evs = true →
      mapFind (generate_map chunk) name = some ⟨eventFiles evs, eventBytes evs⟩) ∧
    (∀ name, mapFind (generate_map chunk) name ≠ none →
      ∃ evs, PathEntry.dir name evs ∈ chunk) := by
  constructor
  · intro name evs hm hfree
    rw [generate_map_find, lastDirEvents_of_nodup hnodup hm]
    simp only [Option.map_some']
    rw [scanInfo, scanFrom_errorFree evs _ hfree]
    simp
  · intro name hne
    rw [generate_map_find] at hne
    cases h : lastDirEvents chunk name with
    | none => rw [h] at hne; simp at hne
    | some evs => exact ⟨evs, lastDirEvents_mem h⟩

/-- C5 witness: concrete instance of the amended aggregation statement. -/
theorem c5_witness :
    mapFind (generate_map
      [PathEntry.dir sX [ChildEvent.file 10, ChildEvent.nonfile, ChildEvent.file 20],
       PathEntry.nondir, PathEntry.dir sY []]) sX = some ⟨2, 30⟩ := by
  have h := (c5_chunk_aggregation
    [PathEntry.dir sX [ChildEvent.file 10, ChildEvent.nonfile, ChildEvent.file 20],
     PathEntry.nondir, PathEntry.dir sY []] (by decide)).1 sX
    [ChildEvent.file 10, ChildEvent.nonfile, ChildEvent.file 20]
    (by decide) (by decide)
  simpa using h

/-- C6 counterexample: two partial mappings can both contain the same
directory name (distinct paths may share a final name component), so the
progress counter — the sum of partial key counts, here 2 — exceeds the
global mapping's key count, here 1. -/
theorem c6_counterexample :
    (mergeAll [[(sX, ⟨1, 5⟩)], [(sX, ⟨2, 7⟩)]]).2 = 2 ∧
    (mergeAll [[(sX, ⟨1, 5⟩)], [(sX, ⟨2, 7⟩)]]).1.length = 1 := by
  decide

/-- C6 (amended): after all merges the progress counter equals the sum of
the partial mappings' key counts; this coincides with the global mapping's
key count when the partial mappings' key sets are pairwise disjoint (a
directory name appearing in at most one partial mapping), but that
disjointness is not guaranteed by chunking, which partitions paths, not
names. -/
theorem c6_progress_counter (pms : List map_type) :
    (mergeAll pms).2 = (pms.map List.length).sum ∧
    ((∀ pm ∈ pms, (mapKeys pm).Nodup) → List.Pairwise disjKeys pms →
      (mergeAll pms).1.length = (pms.map List.length).sum) := by
  constructor
  · rw [mergeAll, mergeAllFrom_counter]
    simp
  · intro hnd hpw
    have hk := mapKeys_mergeAllFrom pms [] 0 hnd hpw
      (by intro pm _ k _; simp [mapKeys])
    have hlen : (mergeAll pms).1.length = (mapKeys (mergeAll pms).1).length := by
      simp [mapKeys]
    rw [hlen, mergeAll, hk]
    simp only [mapKeys, List.map_nil, List.nil_append, List.length_flatten,
      List.map_map]
    have hcomp : List.map (List.length ∘ mapKeys) pms =
        List.map List.length pms := by
      apply List.map_congr_left
      intro pm _
      simp [mapKeys]
    rw [hcomp]

/-- C6 witness: concrete instance with disjoint partial mappings. -/
theorem c6_witness :
    (mergeAll [[(sX, ⟨1, 2⟩)], [(sY, ⟨3, 4⟩)]]).2 = 2 ∧
    (mergeAll [[(sX, ⟨1, 2⟩)], [(sY, ⟨3, 4⟩)]]).1.length = 2 := by
  have hpw : List.Pairwise disjKeys [[(sX, ⟨1, 2⟩)], [(sY, ⟨3, 4⟩)]] := by
    refine List.Pairwise.cons ?_ (List.pairwise_singleton _ _)
    intro b hb
    simp only [List.mem_singleton] at hb
    subst hb
    intro k hk
    simp only [mapKeys, List.map_cons, List.map_nil, List.mem_singleton] at hk
    subst hk
    decide
  have h := c6_progress_counter [[(sX, ⟨1, 2⟩)], [(sY, ⟨3, 4⟩)]]
  exact ⟨h.1.trans (by decide), (h.2 (by decide) hpw).trans (by decide)⟩

/-- C7: the summary totals are not the exact integer sums: both
`std::accumulate` calls use the `int` literal `0` as initial value, so every
step narrows the 64-bit sum back to a 32-bit `int`.  For a global mapping
holding one directory with 2^32 + 5 total bytes, the code prints 5 bytes,
not the exact sum 2^32 + 5. -/
theorem c7_total_truncation :
    total_space [(sX, ⟨1, 2 ^ 32 + 5⟩)] = 5 ∧
    exact_total_space [(sX, ⟨1, 2 ^ 32 + 5⟩)] = 2 ^ 32 + 5 ∧
    total_space [(sX, ⟨1, 2 ^ 32 + 5⟩)] ≠
      (exact_total_space [(sX, ⟨1, 2 ^ 32 + 5⟩)] : Int) := by
  decide

/-- C8: a printed line exists exactly for the entries of the mapping whose
`num_files` is non-zero; in particular an entry with zero `num_files` stays
in the internal mapping but is excluded from the printed report. -/
theorem c8_zero_file_filtering (m : map_type) :
    (∀ name info, (name, info) ∈ printedReport m ↔
      ((name, info) ∈ m ∧ 0 < info.num_files)) ∧
    (∀ name info, (name, info) ∈ m → info.num_files = 0 →
      (name, info) ∉ printedReport m) := by
  constructor
  · intro name info
    simp [printedReport, List.mem_filter]
  · intro name info hm h0
    simp [printedReport, List.mem_filter, h0]

/-- C8 witness: a zero-file entry present in the mapping is not printed. -/
theorem c8_witness :
    (sX, (⟨0, 0⟩ : Extension_info)) ∉
      printedReport [(sX, ⟨0, 0⟩), (sY, ⟨2, 9⟩)] := by
  exact (c8_zero_file_filtering [(sX, ⟨0, 0⟩), (sY, ⟨2, 9⟩)]).2 sX ⟨0, 0⟩
    (by decide) rfl

/-- C9: when two directory entries of a chunk share the same final name
component, reaching the later one resets the shared map entry to `{0, 0}`
and recomputes it from that directory alone, so the earlier directory's
accumulated stats are discarded: the partial mapping's entry reflects only
the last directory with that name in chunk order, whatever the earlier
one's children were. -/
theorem c9_duplicate_name_reset (pre mid post : List PathEntry) (name : String)
    (evs1 evs2 : List ChildEvent)
    (hmid : noDirNamed mid name) (hpost : noDirNamed post name) :
    mapFind (generate_map
      (pre ++ PathEntry.dir name evs1 :: mid ++ PathEntry.dir name evs2 :: post))
      name = some (scanInfo evs2) := by
  have hpost' : lastDirEvents post name = none := lastDirEvents_of_noDir hpost
  have h2 : lastDirEvents (PathEntry.dir name evs2 :: post) name = some evs2 := by
    simp [lastDirEvents, hpost']
  rw [generate_map_find, lastDirEvents_append, h2]
  rfl

/-- C9 witness: the second directory named `x` wipes the first one's count. -/
theorem c9_witness :
    mapFind (generate_map [PathEntry.dir sX [ChildEvent.file 7],
      PathEntry.dir sX [ChildEvent.nonfile]]) sX = some ⟨0, 0⟩ := by
  have h := c9_duplicate_name_reset [] [] [] sX [ChildEvent.file 7]
    [ChildEvent.nonfile] (by intro evs hm; cases hm) (by intro evs hm; cases hm)
  simpa using h

/-- C10: `generate_map` creates the `{0, 0}` entry for a directory before
iterating its children, and never rolls it back: whatever child observations
follow (including an immediate listing failure), the entry for the last
directory of the chunk with that name is present in the partial mapping and
holds exactly the counts accumulated before any error; in particular a
directory whose listing fails immediately keeps its `{0, 0}` entry. -/
theorem c10_entry_retained (chunk : List PathEntry) (name : String)
    (evs : List ChildEvent) (h : lastDirEvents chunk name = some evs) :
    mapFind (generate_map chunk) name = some (scanInfo evs) ∧
    (∀ rest, scanInfo (ChildEvent.listError :: rest) = ⟨0, 0⟩) := by
  constructor
  · rw [generate_map_find, h]
    rfl
  · intro rest
    rfl

/-- C10 witness: a directory whose listing fails immediately still appears
in the partial mapping, with zero counts. -/
theorem c10_witness :
    mapFind (generate_map [PathEntry.dir sX [ChildEvent.listError]]) sX =
      some ⟨0, 0⟩ := by
  exact (c10_entry_retained _ sX [ChildEvent.listError] (by decide)).1
